import Mathlib

/-!
Shallow embedding of `src/shinken/objects/nodesetparse.py`.

Strings are modelled as `List Char`; Python `dict` records from property
names to ordered value lists are modelled as association lists in
iteration order; fallible code returns `Except Err`.  The external
ClusterShell `NodeSet` range expander is an abstract parameter of type
`Rexp`; a concrete instance `nodeSetModel` built from the spec's contract
is used for closed evaluations.  The unbounded `while` loops of the
source advance a cursor by at least one character per iteration, so they
are written with an explicit iteration-count argument (`fuel`), always
called with `value.length + 1`, which is provably never exhausted.
-/

/-- Error kinds of the module (spec section 7): the five `SyntaxError`
conditions of the source plus `indexError`, the Python `IndexError` a
list access out of range raises at runtime. -/
inductive Err where
  | unclosedArgumentGroup
  | unexpectedClosingParenthesis
  | multipleArgumentGroups
  | missingTerminatingDollar
  | invalidRangeExpression
  | indexError
deriving Repr, DecidableEq

/-- Characters matched by Python's `\s` regex class on byte strings. -/
def isWS (c : Char) : Bool :=
  c = ' ' || c = '\t' || c = '\n' || c = '\r' || c = '\x0b' || c = '\x0c'

/-- Convenience conversion from a Lean string literal to the `List Char`
representation used throughout. -/
def chars (s : String) : List Char := s.data

/-- Python `value.find(c)` for a single character: index of the first
occurrence, `none` when absent (Python returns `-1`). -/
def pyFind (c : Char) : List Char → Option Nat
  | [] => none
  | x :: xs => if x = c then some 0 else (pyFind c xs).map (fun k => k + 1)

/-- Python slice `value[a:b]` for `0 ≤ a, b` (empty when `b ≤ a`,
clamped at the end of the list). -/
def pySlice (value : List Char) (a b : Nat) : List Char :=
  (value.drop a).take (b - a)

/-- Python `value.split(sep)` for a single-character separator: splits on
every occurrence, keeping empty chunks (`"".split(sep) == ['']`). -/
def pySplit (sep : Char) : List Char → List (List Char)
  | [] => [[]]
  | c :: rest =>
    match pySplit sep rest with
    | [] => [[]]
    | g :: gs => if c = sep then [] :: g :: gs else (c :: g) :: gs

/-- Python `value.strip()`: remove leading and trailing whitespace. -/
def pyStrip (l : List Char) : List Char :=
  ((l.dropWhile isWS).reverse.dropWhile isWS).reverse

/-- Python `value.find(pat)` for a substring pattern: index of the first
occurrence, `none` when absent. -/
def findSub (pat : List Char) : List Char → Option Nat
  | [] => if pat = [] then some 0 else none
  | c :: rest =>
    if pat.isPrefixOf (c :: rest) then some 0
    else (findSub pat (c :: rest).tail).map (fun k => k + 1)

def EXPAND_MACRO_NAME : List Char := chars "EXPAND"

def DUPLICATE_MACRO_NAME : List Char := chars "DUPLICATE"

/-- State of the `args` dictionary built by `find_macro`: the index of
the opening parenthesis and, once the top-level group is closed, the
index of the closing parenthesis. -/
structure ArgsSt where
  parensOpen : Nat
  parensClose : Option Nat
deriving Repr, DecidableEq

/-- The dictionary returned by `find_macro`: offsets of the macro within
the scanned string, its bare name, the text of its argument group when
one was closed, the raw matched substring, and whether the token was
terminated by a second dollar. -/
structure MacroTok where
  startMacro : Nat
  endMacro : Nat
  name : List Char
  args : Option (List Char)
  mvalue : List Char
  endDollar : Bool
deriving Repr, DecidableEq

/-- The character scan of `find_macro` (the `for i in
range(start_macro+1, len(value))` loop).  `rest` is the unread suffix of
the scanned string, `i` the absolute index of its first character, `op`
the parenthesis depth counter, `argsSt` the argument-group state.
Returns `(end_macro, end_dollar, args)`; on exhaustion `end_macro` keeps
its initialisation `len(value)-1`, which equals `i - 1` here since `i`
has then run past the last index. -/
def fmLoop : List Char → Nat → Nat → Option ArgsSt →
    Except Err (Nat × Bool × Option ArgsSt)
  | [], i, _, argsSt => .ok (i - 1, false, argsSt)
  | c :: rest, i, op, argsSt =>
    if c = '(' then
      match argsSt with
      | none => fmLoop rest (i + 1) (op + 1)
          (some { parensOpen := i, parensClose := none })
      | some a =>
        match a.parensClose with
        | some _ => .error .multipleArgumentGroups
        | none => fmLoop rest (i + 1) (op + 1) argsSt
    else if c = ')' then
      if 0 < op then
        match argsSt with
        | some a =>
          if op - 1 = 0 ∧ a.parensClose = none then
            fmLoop rest (i + 1) (op - 1) (some { a with parensClose := some i })
          else
            fmLoop rest (i + 1) (op - 1) argsSt
        | none => fmLoop rest (i + 1) (op - 1) argsSt
      else .error .unexpectedClosingParenthesis
    else if isWS c ∧ op = 0 then
      .ok (i, false, argsSt)
    else if c = '$' ∧ op = 0 then
      .ok (i, true, argsSt)
    else
      fmLoop rest (i + 1) op argsSt

/-- The `re.search(r'\$([^($\s]*)', macro_value).group(1)` extraction of
the macro name: the run of characters after the first dollar that are
neither `(` nor `$` nor whitespace.  (`macro_value` always begins with a
dollar, so the `none` branch is unreachable.) -/
def macName (mv : List Char) : List Char :=
  match pyFind '$' mv with
  | none => []
  | some k => (mv.drop (k + 1)).takeWhile (fun c => !(c = '(' || c = '$' || isWS c))

/-- `find_macro(value)`: find the first dollar; if none, return `None`;
otherwise scan forward with `fmLoop`, reject an unclosed argument group,
and assemble the macro dictionary. -/
def findMacro (value : List Char) : Except Err (Option MacroTok) :=
  match pyFind '$' value with
  | none => .ok none
  | some startM =>
    match fmLoop (value.drop (startM + 1)) (startM + 1) 0 none with
    | .error e => .error e
    | .ok (endM, endD, argsSt) =>
      match argsSt with
      | some a =>
        match a.parensClose with
        | none => .error .unclosedArgumentGroup
        | some pc =>
          .ok (some { startMacro := startM, endMacro := endM,
                      name := macName (pySlice value startM (endM + 1)),
                      args := some (pySlice value (a.parensOpen + 1) pc),
                      mvalue := pySlice value startM (endM + 1),
                      endDollar := endD })
      | none =>
        .ok (some { startMacro := startM, endMacro := endM,
                    name := macName (pySlice value startM (endM + 1)),
                    args := none,
                    mvalue := pySlice value startM (endM + 1),
                    endDollar := endD })

/-- `check_ends_with_dollar(macro)`: error unless the matched macro was
terminated by a second dollar. -/
def check_ends_with_dollar (m : MacroTok) : Except Err Unit :=
  if m.endDollar then .ok () else .error .missingTerminatingDollar

/-- The `while start < len(value)` loop of `repl_macro_function`,
returning the part of the output built from offset `start` on (the
source appends the same pieces to an accumulator in the same order).
Note the faithful modelling of line 159 of the source: the literal text
copied before a matched macro is `value[start:macro['start_macro']]`,
whose upper bound is the macro's offset relative to `value[start:]`, not
an absolute offset.  `fuel` bounds the iteration count; `start` grows by
at least one per iteration, so `value.length + 1` is never exhausted. -/
def replLoopF (tn : List Char) (ewd : Bool)
    (rf : List Char → Except Err (List Char)) (value : List Char) :
    Nat → Nat → Except Err (List Char)
  | 0, _ => .ok []
  | fuel + 1, start =>
    if start < value.length then
      match findMacro (value.drop start) with
      | .error e => .error e
      | .ok none => .ok (value.drop start)
      | .ok (some m) =>
        let copyThrough : Except Err (List Char) :=
          match replLoopF tn ewd rf value fuel (start + m.endMacro + 1) with
          | .error e => .error e
          | .ok r => .ok (pySlice value start (start + m.endMacro + 1) ++ r)
        match m.args with
        | none => copyThrough
        | some argv =>
          if tn.isPrefixOf m.name = false then copyThrough
          else
            match (if ewd then check_ends_with_dollar m else .ok ()) with
            | .error e => .error e
            | .ok _ =>
              match rf argv with
              | .error e => .error e
              | .ok rep =>
                match replLoopF tn ewd rf value fuel (start + m.endMacro + 1) with
                | .error e => .error e
                | .ok r => .ok (pySlice value start m.startMacro ++ rep ++ r)
    else .ok []

/-- `repl_macro_function(value, macro_name, ends_with_dollar, rep_func)`:
replace every macro-function whose name `re.match`es `macro_name` (a
prefix match) by `rep_func` applied to its argument text. -/
def replMacroFunction (tn : List Char) (ewd : Bool)
    (rf : List Char → Except Err (List Char)) (value : List Char) :
    Except Err (List Char) :=
  replLoopF tn ewd rf value (value.length + 1) 0

/-- Body of `split_preserve_range`: append a character to the last chunk
of the accumulator. -/
def appendLast (acc : List (List Char)) (c : Char) : List (List Char) :=
  match acc with
  | [] => [[c]]
  | [g] => [g ++ [c]]
  | g :: gs => g :: appendLast gs c

/-- Loop of `split_preserve_range`; `ob` is the (possibly negative)
`opened_bracket` counter. -/
def sprGo (sep : Char) : List Char → Int → List (List Char) → List (List Char)
  | [], _, acc => acc
  | c :: rest, ob, acc =>
    if c = '[' then sprGo sep rest (ob + 1) (appendLast acc c)
    else if c = ']' then sprGo sep rest (ob - 1) (appendLast acc c)
    else if c = sep then
      if ob = 0 then sprGo sep rest ob (acc ++ [[]])
      else sprGo sep rest ob (appendLast acc c)
    else sprGo sep rest ob (appendLast acc c)

/-- `split_preserve_range(value, sep)`: split on `sep` only when the
running `[`/`]` counter is zero. -/
def split_preserve_range (value : List Char) (sep : Char) : List (List Char) :=
  sprGo sep value 0 [[]]

/-- Signature of the external Node-Range Expander: one token in, an
ordered sequence of literal tokens out, or a parse failure. -/
abbrev Rexp := List Char → Except Err (List (List Char))

/-- The `for val in value_tmp: val_tmp.extend(NodeSet(val))` loop of
`expand_repl_func`: expand each chunk and concatenate the sequences in
declaration order, failing on the first rejected chunk. -/
def gatherChunks (rexp : Rexp) : List (List Char) → Except Err (List (List Char))
  | [] => .ok []
  | c :: cs =>
    match rexp c with
    | .error e => .error e
    | .ok ns =>
      match gatherChunks rexp cs with
      | .error e => .error e
      | .ok rest => .ok (ns ++ rest)

/-- `expand_repl_func(value)` with the default separator `,`: split the
argument on unbracketed commas, expand every chunk through the external
expander, and join the concatenated tokens with commas.  (The source's
`isinstance(value, list)` branch is dead in this call chain — the
argument of a macro-function is always a string — and the UTF-8
encode/decode round trip is the identity on the character-list model.) -/
def expand_repl_func (rexp : Rexp) (value : List Char) : Except Err (List Char) :=
  match gatherChunks rexp (split_preserve_range value ',') with
  | .error e => .error e
  | .ok toks => .ok (List.intercalate [','] toks)

/-- `expand(value)`: `repl_macro_function` specialised to the `EXPAND`
macro name, requiring a terminating dollar, with `expand_repl_func`. -/
def expand (rexp : Rexp) (value : List Char) : Except Err (List Char) :=
  replMacroFunction EXPAND_MACRO_NAME true (expand_repl_func rexp) value

/-- `is_empty(value)`: true iff the value is only whitespace
(`re.match(r'^\s*$', value)`). -/
def is_empty (value : List Char) : Bool := value.all isWS

/-- The record model: property names mapped to ordered, duplicate-
preserving lists of raw string values, in iteration order. -/
abbrev Record := List (List Char × List (List Char))

/-- `copy_obj(obj)`: the semi-deep copy (fresh dict, fresh value lists,
shared immutable strings) is the identity on the pure value model. -/
def copy_obj (r : Record) : Record := r

/-- Apply `f` to the element at index `j` when it exists (Python
`lst[j] = f(lst[j])`; every such access in `duplicate` is in range). -/
def mapNth (l : List α) (j : Nat) (f : α → α) : List α :=
  match l.get? j with
  | some x => l.set j (f x)
  | none => l

/-- `obj[prop][i] = f(obj[prop][i])` on a record. -/
def recMod (r : Record) (p : List Char) (i : Nat)
    (f : List Char → List Char) : Record :=
  r.map (fun pr => if pr.1 = p then (pr.1, mapNth pr.2 i f) else pr)

/-- `_append_all(clone_lst, prop, i, value)` (the `reinit=False` mode). -/
def appendAll (clones : List Record) (p : List Char) (i : Nat)
    (s : List Char) : List Record :=
  clones.map (fun c => recMod c p i (fun v => v ++ s))

/-- `_append_all(clone_lst, prop, i, None, reinit=True)`. -/
def reinitAll (clones : List Record) (p : List Char) (i : Nat) : List Record :=
  clones.map (fun c => recMod c p i (fun _ => []))

/-- Mutable state of `duplicate`: the growing clone list and the
template record mutated alongside it. -/
structure DupSt where
  clones : List Record
  template : Record
deriving Repr, DecidableEq

/-- The `while` condition's second conjunct,
`value.find(DUPLICATE_MACRO_NAME) > 0` (strictly positive: an
occurrence at offset 0 does not enable the loop). -/
def dupCond (value : List Char) : Bool :=
  match findSub DUPLICATE_MACRO_NAME value with
  | some k => decide (0 < k)
  | none => false

/-- The `for j in range(0, len(values))` loop of `duplicate`: grow the
clone list with a copy of the template whenever `j` reaches its length,
then append `pfx + values[j]` to clone `j`'s value. -/
def dupAssign (p : List Char) (i : Nat) (pfx : List Char) (tmpl : Record) :
    Nat → List (List Char) → List Record → List Record
  | _, [], clones => clones
  | j, v :: vs, clones =>
    let clones1 := if j = clones.length then clones ++ [copy_obj tmpl] else clones
    let clones2 := mapNth clones1 j (fun c => recMod c p i (fun s => s ++ (pfx ++ v)))
    dupAssign p i pfx tmpl (j + 1) vs clones2

/-- The `for j in range(len(values), len(clone_lst))` broadcast loop:
append `last_value` to every pre-existing clone beyond the new value
count (`j` counts from 0 over the clone list here; indices below
`nvals` are left untouched). -/
def dupBroadcast (p : List Char) (i nvals : Nat) (lastv : List Char) :
    Nat → List Record → List Record
  | _, [] => []
  | j, c :: cs =>
    (if nvals ≤ j then recMod c p i (fun s => s ++ lastv) else c) ::
      dupBroadcast p i nvals lastv (j + 1) cs

/-- The `while macro and value.find(DUPLICATE_MACRO_NAME) > 0` loop of
`duplicate` for one property value.  Returns the updated state together
with the final `start` offset and the `reinit_once` flag.  `fuel` bounds
the iteration count; `start` grows by at least one per iteration, so
`value.length + 1` is never exhausted. -/
def dupMacroLoopF (rexp : Rexp) (p : List Char) (i : Nat) (value : List Char) :
    Nat → Nat → Bool → DupSt → Except Err (DupSt × Nat × Bool)
  | 0, start, reinitOnce, st => .ok (st, start, reinitOnce)
  | fuel + 1, start, reinitOnce, st =>
    match findMacro (value.drop start) with
    | .error e => .error e
    | .ok none => .ok (st, start, reinitOnce)
    | .ok (some m) =>
      if dupCond value then
        let st1 := if reinitOnce then st else
          { clones := reinitAll st.clones p i,
            template := recMod st.template p i (fun _ => []) }
        match m.args with
        | some argv =>
          if DUPLICATE_MACRO_NAME.isPrefixOf m.name then
            match check_ends_with_dollar m with
            | .error e => .error e
            | .ok _ =>
              let pfx := pySlice value start (start + m.startMacro)
              match expand rexp argv with
              | .error e => .error e
              | .ok ex =>
                let values := (pySplit ',' ex).map pyStrip
                let clones1 := dupAssign p i pfx st1.template 0 values st1.clones
                let lastv := pfx ++ values.getLastD []
                let clones2 := dupBroadcast p i values.length lastv 0 clones1
                let tmpl2 := recMod st1.template p i (fun s => s ++ lastv)
                dupMacroLoopF rexp p i value fuel (start + m.endMacro + 1) true
                  { clones := clones2, template := tmpl2 }
          else
            dupMacroLoopF rexp p i value fuel (start + m.endMacro + 1) true
              { st1 with clones :=
                  appendAll st1.clones p i (pySlice value start (start + m.endMacro + 1)) }
        | none =>
          dupMacroLoopF rexp p i value fuel (start + m.endMacro + 1) true
            { st1 with clones :=
                appendAll st1.clones p i (pySlice value start (start + m.endMacro + 1)) }
      else .ok (st, start, reinitOnce)

/-- Processing of one property value by `duplicate`: run the macro loop
from offset 0 and, when the value was re-initialised, append the
remaining literal suffix `value[start:]` to every clone (and only to
the clones — the template is left as it is, lines 317-320 of the
source). -/
def dupValue (rexp : Rexp) (p : List Char) (i : Nat) (value : List Char)
    (st : DupSt) : Except Err DupSt :=
  match dupMacroLoopF rexp p i value (value.length + 1) 0 false st with
  | .error e => .error e
  | .ok (st1, start, reinitOnce) =>
    if reinitOnce then
      .ok { st1 with clones := appendAll st1.clones p i (value.drop start) }
    else .ok st1

/-- The `for i in range(0, len(obj[prop]))` loop of `duplicate` over one
property's values (the values iterated are those of the input record,
which `duplicate` never mutates). -/
def dupVals (rexp : Rexp) (p : List Char) :
    Nat → List (List Char) → DupSt → Except Err DupSt
  | _, [], st => .ok st
  | i, v :: vs, st =>
    match dupValue rexp p i v st with
    | .error e => .error e
    | .ok st1 => dupVals rexp p (i + 1) vs st1

/-- The `for prop in obj` loop of `duplicate`. -/
def dupProps (rexp : Rexp) : Record → DupSt → Except Err DupSt
  | [], st => .ok st
  | (p, vs) :: rest, st =>
    match dupVals rexp p 0 vs st with
    | .error e => .error e
    | .ok st1 => dupProps rexp rest st1

/-- `duplicate(obj)`: expand `DUPLICATE` macro-functions into a list of
clones; when no clone was ever created, return `[obj]` unchanged. -/
def duplicate (rexp : Rexp) (obj : Record) : Except Err (List Record) :=
  match dupProps rexp obj { clones := [], template := copy_obj obj } with
  | .error e => .error e
  | .ok st => if st.clones = [] then .ok [obj] else .ok st.clones

/-- The `for i in range(0, len(obj[prop]))` loop of `process` over one
property's value list.  The iteration count `k` is fixed at the list's
length on entry while `del` shrinks the list in place, so a read
`obj[prop][i]` past the shrunk list raises `IndexError`, exactly as in
Python. -/
def pruneLoopF (rexp : Rexp) : Nat → Nat → List (List Char) →
    Except Err (List (List Char))
  | 0, _, vals => .ok vals
  | k + 1, i, vals =>
    match vals.get? i with
    | none => .error .indexError
    | some v =>
      match expand rexp v with
      | .error e => .error e
      | .ok ev =>
        let vals1 := vals.set i ev
        if is_empty ev then pruneLoopF rexp k (i + 1) (vals1.eraseIdx i)
        else pruneLoopF rexp k (i + 1) vals1

/-- Expansion and pruning of one property's value list by `process`. -/
def pruneVals (rexp : Rexp) (vals : List (List Char)) :
    Except Err (List (List Char)) :=
  pruneLoopF rexp vals.length 0 vals

/-- The `for prop in obj` loop of `process` over one record. -/
def pruneRecord (rexp : Rexp) : Record → Except Err Record
  | [] => .ok []
  | (p, vs) :: rest =>
    match pruneVals rexp vs with
    | .error e => .error e
    | .ok vs1 =>
      match pruneRecord rexp rest with
      | .error e => .error e
      | .ok rest1 => .ok ((p, vs1) :: rest1)

/-- The `for obj in obj_list` loop of `process`. -/
def processList (rexp : Rexp) : List Record → Except Err (List Record)
  | [] => .ok []
  | r :: rs =>
    match pruneRecord rexp r with
    | .error e => .error e
    | .ok r1 =>
      match processList rexp rs with
      | .error e => .error e
      | .ok rs1 => .ok (r1 :: rs1)

/-- `process(obj)`: duplicate, then expand every value of every clone
and delete the values that became empty or whitespace-only. -/
def process (rexp : Rexp) (obj : Record) : Except Err (List Record) :=
  match duplicate rexp obj with
  | .error e => .error e
  | .ok lst => processList rexp lst

/-- Decimal value of a digit character. -/
def natOfDigits (l : List Char) : Nat :=
  l.foldl (fun a c => a * 10 + (c.toNat - 48)) 0

/-- Modelled from the spec: the external Node-Range Expander
(ClusterShell `NodeSet`, out of scope of the repository, sections 4.3
and 6 of the spec).  A token without bracket characters is an ordered
singleton (or the empty set for the empty token); a token of the shape
`name[a-b]` with `a ≤ b` enumerates `name a .. name b` in bracket order
(section 8's `h[0-2]` example); any other use of `[` or `]` — in
particular an unmatched bracket — is rejected, which this development
maps to `InvalidRangeExpression`. -/
def nodeSetModel (tok : List Char) : Except Err (List (List Char)) :=
  let p := tok.takeWhile (fun c => !(c = '[' || c = ']'))
  match tok.drop p.length with
  | [] => if tok = [] then .ok [] else .ok [tok]
  | '[' :: body =>
    let ds1 := body.takeWhile Char.isDigit
    match body.drop ds1.length with
    | '-' :: r3 =>
      let ds2 := r3.takeWhile Char.isDigit
      match r3.drop ds2.length with
      | [']'] =>
        if ds1 = [] || ds2 = [] then .error .invalidRangeExpression
        else
          let a := natOfDigits ds1
          let b := natOfDigits ds2
          if a ≤ b then
            .ok ((List.range (b + 1 - a)).map (fun k => p ++ Nat.toDigits 10 (a + k)))
          else .error .invalidRangeExpression
      | _ => .error .invalidRangeExpression
    | _ => .error .invalidRangeExpression
  | _ => .error .invalidRangeExpression

deriving instance DecidableEq for Except

set_option synthInstance.maxSize 1024

/-- Decidable side condition used by the pass-through theorem: scanning
any suffix of `value` neither fails nor yields a macro-function whose
name starts with `tn`. -/
def benignScan (tn value : List Char) : Bool :=
  (List.range value.length).all (fun s =>
    match findMacro (value.drop s) with
    | .error _ => false
    | .ok none => true
    | .ok (some m) => m.args.isNone || !(tn.isPrefixOf m.name))

/-- Observable shape of a record: its property names in order, each with
its number of values. -/
def shape (r : Record) : List (List Char × Nat) :=
  r.map (fun pr => (pr.1, pr.2.length))

/-! ### Basic facts about the helpers -/

theorem pyFind_eq_none_iff (c : Char) (l : List Char) :
    pyFind c l = none ↔ c ∉ l := by
  induction l with
  | nil => simp [pyFind]
  | cons x xs ih =>
    by_cases hx : x = c
    · subst hx
      simp [pyFind]
    · simp only [pyFind, if_neg hx, Option.map_eq_none', ih, List.mem_cons]
      constructor
      · intro h hmem
        rcases hmem with h1 | h2
        · exact hx h1.symm
        · exact h h2
      · intro h h2
        exact h (Or.inr h2)

theorem mem_of_pyFind_some {c : Char} {l : List Char} {k : Nat}
    (h : pyFind c l = some k) : c ∈ l := by
  by_contra hmem
  rw [← pyFind_eq_none_iff c l] at hmem
  rw [hmem] at h
  exact Option.noConfusion h

theorem findMacro_of_no_dollar {v : List Char} (h : '$' ∉ v) :
    findMacro v = .ok none := by
  unfold findMacro
  rw [(pyFind_eq_none_iff '$' v).mpr h]

theorem pySlice_append_drop (value : List Char) (a b : Nat) (h : a ≤ b) :
    pySlice value a b ++ value.drop b = value.drop a := by
  unfold pySlice
  have hb : value.drop b = (value.drop a).drop (b - a) := by
    rw [List.drop_drop]
    congr 1
    omega
  rw [hb, List.take_append_drop]

theorem list_set_get {α : Type} {l : List α} {i : Nat} {v : α}
    (h : l.get? i = some v) : l.set i v = l := by
  induction l generalizing i with
  | nil => simp at h
  | cons x xs ih =>
    cases i with
    | zero =>
      simp only [List.get?] at h
      cases h
      rfl
    | succ n =>
      simp only [List.get?] at h
      simp [List.set, ih h]

/-- A value from which the scanner extracts no macro passes
`repl_macro_function` (hence `expand`) unchanged. -/
theorem replMacroFunction_of_none {tn : List Char} {ewd : Bool}
    {rf : List Char → Except Err (List Char)} {v : List Char}
    (h : findMacro v = .ok none) :
    replMacroFunction tn ewd rf v = .ok v := by
  unfold replMacroFunction
  cases v with
  | nil => rfl
  | cons c rest =>
    show replLoopF tn ewd rf (c :: rest) (rest.length + 1 + 1) 0 = _
    unfold replLoopF
    simp only [List.drop_zero]
    rw [h]
    simp

/-- Claim C1 evaluation: a whitespace-only value that is not in last
position makes `process` fail with an `IndexError`, while a trailing
one is pruned as intended and a property pruned to nothing stays
present with an empty list. -/
theorem process_prune_eval :
    process nodeSetModel [(chars "p", [chars " ", chars "a"])] = .error .indexError ∧
    process nodeSetModel [(chars "p", [chars "a", chars " "])] =
      .ok [[(chars "p", [chars "a"])]] ∧
    process nodeSetModel [(chars "p", [chars " "])] = .ok [[(chars "p", [])]] := by
  decide

/-- Claim C2 counterexample: with a literal suffix after the 2-way
DUPLICATE macro and that property iterated first, the third clone's
value for the 2-way property is "v", not the second clone's "v-s" —
the suffix is never written to the template the third clone is copied
from. -/
theorem duplicate_broadcast_suffix_cex :
    duplicate nodeSetModel
        [(chars "a2", [chars "$DUPLICATE(u,v)$-s"]),
         (chars "a3", [chars "$DUPLICATE(x,y,z)$"])] =
      .ok [[(chars "a2", [chars "u-s"]), (chars "a3", [chars "x"])],
           [(chars "a2", [chars "v-s"]), (chars "a3", [chars "y"])],
           [(chars "a2", [chars "v"]), (chars "a3", [chars "z"])]] ∧
    chars "v" ≠ chars "v-s" := by
  decide

/-- Claim C2 amended: when the 2-way and 3-way properties hold exactly
one DUPLICATE macro-function each (no trailing literal text), the
record yields 3 clones and the third clone's value for the 2-way
property equals the second clone's, in either property order. -/
theorem duplicate_broadcast :
    duplicate nodeSetModel
        [(chars "a2", [chars "$DUPLICATE(u,v)$"]),
         (chars "a3", [chars "$DUPLICATE(x,y,z)$"])] =
      .ok [[(chars "a2", [chars "u"]), (chars "a3", [chars "x"])],
           [(chars "a2", [chars "v"]), (chars "a3", [chars "y"])],
           [(chars "a2", [chars "v"]), (chars "a3", [chars "z"])]] ∧
    duplicate nodeSetModel
        [(chars "a3", [chars "$DUPLICATE(x,y,z)$"]),
         (chars "a2", [chars "$DUPLICATE(u,v)$"])] =
      .ok [[(chars "a3", [chars "x"]), (chars "a2", [chars "u"])],
           [(chars "a3", [chars "y"]), (chars "a2", [chars "v"])],
           [(chars "a3", [chars "z"]), (chars "a2", [chars "v"])]] := by
  decide

/-- Claim C3 counterexample: the name comparison is `re.match`, a prefix
match, so the macro-function `$EXPANDX(a)$` — whose name `EXPANDX` is
neither `EXPAND` nor `DUPLICATE` — is treated as an `EXPAND` macro and
replaced rather than passed through. -/
theorem expand_name_prefix_cex :
    expand nodeSetModel (chars "$EXPANDX(a)$") = .ok (chars "a") ∧
    chars "a" ≠ chars "$EXPANDX(a)$" := by
  decide

/-- Claim C4 counterexample: `duplicate` splits the expanded argument
with a plain `split(',')`, so the comma inside `x[1,2]` does separate
two duplicate values, yielding two clones `x[1` and `2]` instead of a
single clone `x[1,2]`. -/
theorem duplicate_split_bracket_cex :
    duplicate nodeSetModel [(chars "p", [chars "$DUPLICATE(x[1,2])$"])] =
      .ok [[(chars "p", [chars "x[1"])], [(chars "p", [chars "2]"])]] ∧
    duplicate nodeSetModel [(chars "p", [chars "$DUPLICATE(x[1,2])$"])] ≠
      .ok [[(chars "p", [chars "x[1,2]"])]] := by
  decide

/-- Claim C4 amended: the DUPLICATE argument is first expanded through
the EXPAND pass (a nested `$EXPAND(h[0-1])$` yields the two values `h0`
and `h1`), then split on every comma regardless of brackets or
parentheses, each value trimmed of surrounding whitespace. -/
theorem duplicate_split_eval :
    duplicate nodeSetModel [(chars "p", [chars "$DUPLICATE($EXPAND(h[0-1])$)$"])] =
      .ok [[(chars "p", [chars "h0"])], [(chars "p", [chars "h1"])]] ∧
    duplicate nodeSetModel [(chars "p", [chars "$DUPLICATE(a , b)$"])] =
      .ok [[(chars "p", [chars "a"])], [(chars "p", [chars "b"])]] := by
  decide

/-- Claim C5 counterexample: the literal suffix `_tail` after the last
DUPLICATE macro is appended to the clones existing at that moment but
not to the template, so the third clone — created later by the 3-way
group on the other property — does not carry it. -/
theorem duplicate_suffix_template_cex :
    duplicate nodeSetModel
        [(chars "q1", [chars "$DUPLICATE(a,b)$_tail"]),
         (chars "q2", [chars "$DUPLICATE(1,2,3)$"])] =
      .ok [[(chars "q1", [chars "a_tail"]), (chars "q2", [chars "1"])],
           [(chars "q1", [chars "b_tail"]), (chars "q2", [chars "2"])],
           [(chars "q1", [chars "b"]), (chars "q2", [chars "3"])]] ∧
    chars "b" ≠ chars "b_tail" := by
  decide

/-- Claim C5 amended: the remaining literal suffix is appended to every
clone existing when the value's macros have been consumed, but not to
the template; clones spawned afterwards get only prefix plus last
literal value. -/
theorem duplicate_suffix_eval :
    duplicate nodeSetModel
        [(chars "w1", [chars "$DUPLICATE(m,n)$X"]),
         (chars "w2", [chars "$DUPLICATE(r,s,t)$"])] =
      .ok [[(chars "w1", [chars "mX"]), (chars "w2", [chars "r"])],
           [(chars "w1", [chars "nX"]), (chars "w2", [chars "s"])],
           [(chars "w1", [chars "n"]), (chars "w2", [chars "t"])]] := by
  decide

/-- Claim C6 counterexample: `"$EXPAND(h[0-2"` also leaves the macro's
parenthesis group unclosed, so the scanner itself rejects it with
`UnclosedArgumentGroup`; the external expander is never consulted and
the error is not `InvalidRangeExpression`. -/
theorem expand_unclosed_cex :
    expand nodeSetModel (chars "$EXPAND(h[0-2") = .error .unclosedArgumentGroup ∧
    Err.unclosedArgumentGroup ≠ Err.invalidRangeExpression := by
  decide

/-- Claim C6 amended: an argument whose parenthesis group closes but
whose bracket token is malformed is rejected by the external expander,
surfacing as `InvalidRangeExpression`; the unclosed-parenthesis input
fails earlier, in the scanner. -/
theorem expand_range_error_eval :
    expand nodeSetModel (chars "$EXPAND(h[0-2)$") = .error .invalidRangeExpression ∧
    expand nodeSetModel (chars "$EXPAND(h[0-2") = .error .unclosedArgumentGroup := by
  decide

/-- Claim C7 counterexample: a record with a whitespace-only value and
no dollar character is not returned unchanged — the blank value is
pruned (and with a non-blank value after it, `process` even fails). -/
theorem process_no_dollar_cex :
    process nodeSetModel [(chars "p", [chars " "])] ≠
      .ok [[(chars "p", [chars " "])]] := by
  decide

/-! ### The scanner on dollar-free text and the start offset -/

theorem findMacro_cases {text : List Char} {st : Nat}
    (h : pyFind '$' text = some st) :
    (∃ e, findMacro text = .error e) ∨
    (∃ m, findMacro text = .ok (some m) ∧ m.startMacro = st) := by
  cases hl : fmLoop (text.drop (st + 1)) (st + 1) 0 none with
  | error e => exact Or.inl ⟨e, by simp only [findMacro, h, hl]⟩
  | ok t =>
    obtain ⟨endM, endD, argsSt⟩ := t
    match argsSt with
    | none => exact Or.inr ⟨_, by simp only [findMacro, h, hl]; rfl, rfl⟩
    | some ⟨po, none⟩ => exact Or.inl ⟨_, by simp only [findMacro, h, hl]; rfl⟩
    | some ⟨po, some pc⟩ => exact Or.inr ⟨_, by simp only [findMacro, h, hl]; rfl, rfl⟩

/-- Claim C10: `find_macro` returns `None` exactly when the text has no
dollar character, and any returned macro starts at the first dollar. -/
theorem findMacro_spec (text : List Char) :
    (findMacro text = Except.ok none ↔ '$' ∉ text) ∧
    (∀ m, findMacro text = Except.ok (some m) →
      pyFind '$' text = some m.startMacro) := by
  cases hf : pyFind '$' text with
  | none =>
    have hno := (pyFind_eq_none_iff '$' text).mp hf
    have heq := findMacro_of_no_dollar hno
    refine ⟨⟨fun _ => hno, fun _ => heq⟩, fun m hm => ?_⟩
    rw [heq] at hm
    simp at hm
  | some st =>
    have hmem := mem_of_pyFind_some hf
    rcases findMacro_cases hf with ⟨e, he⟩ | ⟨m0, hm0, hst⟩
    · refine ⟨⟨fun h2 => ?_, fun h2 => absurd hmem h2⟩, fun m hm => ?_⟩
      · rw [he] at h2; cases h2
      · rw [he] at hm; cases hm
    · refine ⟨⟨fun h2 => ?_, fun h2 => absurd hmem h2⟩, fun m hm => ?_⟩
      · rw [hm0] at h2; cases h2
      · rw [hm0] at hm
        injection hm with h1
        injection h1 with h2
        rw [← h2, hst]

/-- Witness for `findMacro_spec` at concrete inputs: `abc` has no
dollar and scans to `None`; in `ab$X c` the returned macro starts at
offset 2, the first dollar. -/
theorem findMacro_spec_witness :
    (findMacro (chars "abc") = Except.ok none ↔ '$' ∉ chars "abc") ∧
    pyFind '$' (chars "ab$X c") = some 2 := by
  constructor
  · exact (findMacro_spec (chars "abc")).1
  · exact (findMacro_spec (chars "ab$X c")).2
      ⟨2, 4, chars "X", none, chars "$X ", false⟩ (by decide)

/-! ### A record without dollars passes `process` unchanged
(claim C7, amended with the no-blank-value side condition) -/

theorem expand_of_no_dollar {rexp : Rexp} {v : List Char} (h : '$' ∉ v) :
    expand rexp v = .ok v :=
  replMacroFunction_of_none (findMacro_of_no_dollar h)

theorem dupValue_no_dollar {rexp : Rexp} {p : List Char} {i : Nat}
    {v : List Char} {st : DupSt} (h : '$' ∉ v) :
    dupValue rexp p i v st = .ok st := by
  have hfm : findMacro v = .ok none := findMacro_of_no_dollar h
  have hloop : dupMacroLoopF rexp p i v (v.length + 1) 0 false st =
      .ok (st, 0, false) := by
    show dupMacroLoopF rexp p i v (v.length + 1) 0 false st = _
    unfold dupMacroLoopF
    rw [List.drop_zero, hfm]
  unfold dupValue
  rw [hloop]
  rfl

theorem dupVals_no_dollar {rexp : Rexp} {p : List Char} :
    ∀ (i : Nat) (vs : List (List Char)) (st : DupSt),
      (∀ v ∈ vs, '$' ∉ v) → dupVals rexp p i vs st = .ok st := by
  intro i vs
  induction vs generalizing i with
  | nil => intro st _; rfl
  | cons v vs ih =>
    intro st h
    unfold dupVals
    rw [dupValue_no_dollar (h v (by simp))]
    exact ih (i + 1) st (fun w hw => h w (by simp [hw]))

theorem dupProps_no_dollar {rexp : Rexp} :
    ∀ (entries : Record) (st : DupSt),
      (∀ pr ∈ entries, ∀ v ∈ pr.2, '$' ∉ v) →
      dupProps rexp entries st = .ok st := by
  intro entries
  induction entries with
  | nil => intro st _; rfl
  | cons pr rest ih =>
    intro st h
    obtain ⟨p, vs⟩ := pr
    unfold dupProps
    rw [dupVals_no_dollar 0 vs st (h (p, vs) (by simp))]
    exact ih st (fun pr2 hpr2 => h pr2 (by simp [hpr2]))

theorem duplicate_no_dollar {rexp : Rexp} {obj : Record}
    (h : ∀ pr ∈ obj, ∀ v ∈ pr.2, '$' ∉ v) :
    duplicate rexp obj = .ok [obj] := by
  unfold duplicate
  rw [dupProps_no_dollar obj _ h]
  rfl

theorem pruneLoopF_stable {rexp : Rexp} :
    ∀ (k i : Nat) (vals : List (List Char)),
      (∀ v ∈ vals, '$' ∉ v ∧ is_empty v = false) → i + k = vals.length →
      pruneLoopF rexp k i vals = .ok vals := by
  intro k
  induction k with
  | zero => intro i vals _ _; rfl
  | succ k ih =>
    intro i vals h hk
    have hi : i < vals.length := by omega
    cases hg : vals.get? i with
    | none =>
      have := List.get?_eq_none.mp hg
      omega
    | some v =>
      have hv := h v (List.get?_mem hg)
      simp only [pruneLoopF, hg, expand_of_no_dollar hv.1, list_set_get hg, hv.2,
        Bool.false_eq_true, if_false]
      exact ih (i + 1) vals h (by omega)

theorem pruneRecord_stable {rexp : Rexp} :
    ∀ (r : Record), (∀ pr ∈ r, ∀ v ∈ pr.2, '$' ∉ v ∧ is_empty v = false) →
      pruneRecord rexp r = .ok r := by
  intro r
  induction r with
  | nil => intro _; rfl
  | cons pr rest ih =>
    intro h
    obtain ⟨p, vs⟩ := pr
    unfold pruneRecord
    have hvals : pruneVals rexp vs = .ok vs := by
      unfold pruneVals
      exact pruneLoopF_stable vs.length 0 vs (h (p, vs) (by simp)) (by omega)
    rw [hvals, ih (fun pr2 hpr2 => h pr2 (by simp [hpr2]))]

/-- Claim C7 amended: `process` returns the one-element list of the
unchanged record provided no value contains a dollar character and no
value is empty or whitespace-only (the latter side condition is forced
by the pruning stage). -/
theorem process_no_dollar (rexp : Rexp) (obj : Record)
    (h : ∀ pr ∈ obj, ∀ v ∈ pr.2, '$' ∉ v ∧ is_empty v = false) :
    process rexp obj = .ok [obj] := by
  unfold process
  rw [duplicate_no_dollar (fun pr hpr v hv => (h pr hpr v hv).1)]
  show processList rexp [obj] = Except.ok [obj]
  unfold processList
  rw [pruneRecord_stable obj h]
  rfl

/-- Witness for `process_no_dollar` at a concrete record. -/
theorem process_no_dollar_witness :
    process nodeSetModel
        [(chars "host_name", [chars "h1", chars "h2"]),
         (chars "address", [chars "127.0.0.1"])] =
      .ok [[(chars "host_name", [chars "h1", chars "h2"]),
            (chars "address", [chars "127.0.0.1"])]] :=
  process_no_dollar nodeSetModel _ (by decide)

/-! ### Pass-through of unmatched macros (claim C3, amended: the name
comparison is a prefix match) -/

theorem benign_not_error {tn value : List Char}
    (hb : benignScan tn value = true) {s : Nat} (hs : s < value.length)
    {e : Err} : findMacro (value.drop s) ≠ .error e := by
  intro hcontra
  have := List.all_eq_true.mp hb s (List.mem_range.mpr hs)
  rw [hcontra] at this
  simp at this

theorem benign_not_matched {tn value : List Char}
    (hb : benignScan tn value = true) {s : Nat} (hs : s < value.length)
    {m : MacroTok} (hm : findMacro (value.drop s) = .ok (some m)) :
    m.args = none ∨ tn.isPrefixOf m.name = false := by
  have := List.all_eq_true.mp hb s (List.mem_range.mpr hs)
  rw [hm] at this
  simp only [Bool.or_eq_true, Option.isNone_iff_eq_none, Bool.not_eq_true'] at this
  exact this

theorem replLoopF_benign {tn value : List Char} {ewd : Bool}
    {rf : List Char → Except Err (List Char)}
    (hb : benignScan tn value = true) :
    ∀ (fuel start : Nat), value.length - start < fuel →
      replLoopF tn ewd rf value fuel start = .ok (value.drop start) := by
  intro fuel
  induction fuel with
  | zero => intro start h; omega
  | succ fuel ih =>
    intro start h
    by_cases hlt : start < value.length
    · cases hfm : findMacro (value.drop start) with
      | error e => exact absurd hfm (benign_not_error hb hlt)
      | ok op =>
        cases op with
        | none =>
          unfold replLoopF
          rw [if_pos hlt, hfm]
        | some m =>
          have hrec : replLoopF tn ewd rf value fuel (start + m.endMacro + 1) =
              .ok (value.drop (start + m.endMacro + 1)) := ih _ (by omega)
          have hglue : pySlice value start (start + m.endMacro + 1) ++
              value.drop (start + m.endMacro + 1) = value.drop start :=
            pySlice_append_drop value _ _ (by omega)
          rcases benign_not_matched hb hlt hfm with hargs | hpref
          · unfold replLoopF
            rw [if_pos hlt, hfm]
            simp only [hargs, hrec, hglue]
          · cases hargs2 : m.args with
            | none =>
              unfold replLoopF
              rw [if_pos hlt, hfm]
              simp only [hargs2, hrec, hglue]
            | some argv =>
              unfold replLoopF
              rw [if_pos hlt, hfm]
              simp only [hargs2, hpref, if_pos, hrec, hglue]
    · unfold replLoopF
      rw [if_neg hlt, List.drop_eq_nil_of_le (by omega)]

theorem dupMacroLoopF_benign {rexp : Rexp} {p : List Char} {i : Nat}
    {value : List Char}
    (hb : benignScan DUPLICATE_MACRO_NAME value = true) :
    ∀ (fuel start : Nat) (r : Bool) (st : DupSt), st.clones = [] →
      ∃ st2 s2 r2,
        dupMacroLoopF rexp p i value fuel start r st = .ok (st2, s2, r2) ∧
        st2.clones = [] := by
  intro fuel
  induction fuel with
  | zero => intro start r st hc; exact ⟨st, start, r, rfl, hc⟩
  | succ fuel ih =>
    intro start r st hc
    by_cases hlt : start < value.length
    · cases hfm : findMacro (value.drop start) with
      | error e => exact absurd hfm (benign_not_error hb hlt)
      | ok op =>
        cases op with
        | none =>
          refine ⟨st, start, r, ?_, hc⟩
          simp only [dupMacroLoopF, hfm]
        | some m =>
          by_cases hdc : dupCond value = true
          · have hst1 : (if r = true then st else
                { clones := reinitAll st.clones p i,
                  template := recMod st.template p i (fun _ => []) } : DupSt).clones
                = [] := by
              cases r <;> simp [reinitAll, hc]
            rcases benign_not_matched hb hlt hfm with hargs | hpref
            · simp only [dupMacroLoopF, hfm, hdc, hargs, if_true]
              exact ih (start + m.endMacro + 1) true _ (by simp [appendAll, hst1])
            · cases hargs2 : m.args with
              | none =>
                simp only [dupMacroLoopF, hfm, hdc, hargs2, if_true]
                exact ih (start + m.endMacro + 1) true _ (by simp [appendAll, hst1])
              | some argv =>
                simp only [dupMacroLoopF, hfm, hdc, hargs2, hpref, if_true,
                  Bool.false_eq_true, if_false]
                exact ih (start + m.endMacro + 1) true _ (by simp [appendAll, hst1])
          · refine ⟨st, start, r, ?_, hc⟩
            simp only [dupMacroLoopF, hfm, hdc, Bool.false_eq_true, if_false]
    · have hnil : value.drop start = [] := List.drop_eq_nil_of_le (by omega)
      refine ⟨st, start, r, ?_, hc⟩
      simp only [dupMacroLoopF, hnil]
      rfl

theorem dupValue_benign {rexp : Rexp} {p : List Char} {i : Nat}
    {v : List Char} {st : DupSt}
    (hb : benignScan DUPLICATE_MACRO_NAME v = true) (hc : st.clones = []) :
    ∃ st2, dupValue rexp p i v st = .ok st2 ∧ st2.clones = [] := by
  obtain ⟨st2, s2, r2, heq, hc2⟩ :=
    dupMacroLoopF_benign hb (v.length + 1) 0 false st hc
  unfold dupValue
  rw [heq]
  cases r2 with
  | false => exact ⟨st2, rfl, hc2⟩
  | true =>
    refine ⟨{ st2 with clones := appendAll st2.clones p i (v.drop s2) }, rfl, ?_⟩
    simp [appendAll, hc2]

theorem dupVals_benign {rexp : Rexp} {p : List Char} :
    ∀ (i : Nat) (vs : List (List Char)) (st : DupSt),
      (∀ v ∈ vs, benignScan DUPLICATE_MACRO_NAME v = true) → st.clones = [] →
      ∃ st2, dupVals rexp p i vs st = .ok st2 ∧ st2.clones = [] := by
  intro i vs
  induction vs generalizing i with
  | nil => intro st _ hc; exact ⟨st, rfl, hc⟩
  | cons v vs ih =>
    intro st h hc
    obtain ⟨st1, heq1, hc1⟩ := dupValue_benign (h v (by simp)) hc
    obtain ⟨st2, heq2, hc2⟩ :=
      ih (i + 1) st1 (fun w hw => h w (by simp [hw])) hc1
    refine ⟨st2, ?_, hc2⟩
    unfold dupVals
    rw [heq1]
    exact heq2

theorem dupProps_benign {rexp : Rexp} :
    ∀ (entries : Record) (st : DupSt),
      (∀ pr ∈ entries, ∀ v ∈ pr.2, benignScan DUPLICATE_MACRO_NAME v = true) →
      st.clones = [] →
      ∃ st2, dupProps rexp entries st = .ok st2 ∧ st2.clones = [] := by
  intro entries
  induction entries with
  | nil => intro st _ hc; exact ⟨st, rfl, hc⟩
  | cons pr rest ih =>
    intro st h hc
    obtain ⟨p, vs⟩ := pr
    obtain ⟨st1, heq1, hc1⟩ := dupVals_benign 0 vs st (h (p, vs) (by simp)) hc
    obtain ⟨st2, heq2, hc2⟩ :=
      ih st1 (fun pr2 hpr2 => h pr2 (by simp [hpr2])) hc1
    refine ⟨st2, ?_, hc2⟩
    unfold dupProps
    rw [heq1]
    exact heq2

/-- Claim C3 amended: a macro with no argument group, or whose name
does not have the target name as a prefix (`re.match` semantics), is
copied through the substitution pass unchanged; consequently a string
none of whose scanned macros is a matching macro-function passes
`repl_macro_function` unchanged, and a record none of whose scanned
macros is a DUPLICATE-prefixed macro-function passes `duplicate`
unchanged. -/
theorem macro_pass_through :
    (∀ (tn : List Char) (ewd : Bool) (rf : List Char → Except Err (List Char))
       (value : List Char), benignScan tn value = true →
       replMacroFunction tn ewd rf value = .ok value) ∧
    (∀ (rexp : Rexp) (obj : Record),
       (∀ pr ∈ obj, ∀ v ∈ pr.2, benignScan DUPLICATE_MACRO_NAME v = true) →
       duplicate rexp obj = .ok [obj]) := by
  constructor
  · intro tn ewd rf value hb
    unfold replMacroFunction
    rw [replLoopF_benign hb (value.length + 1) 0 (by omega)]
    rw [List.drop_zero]
  · intro rexp obj h
    obtain ⟨st2, heq, hc⟩ :=
      dupProps_benign obj { clones := [], template := copy_obj obj } h rfl
    unfold duplicate
    rw [heq]
    simp [hc]

/-- Witness for `macro_pass_through`: the macro-function `$FOO(a)$`
(name `FOO`, not a prefix match for `EXPAND` or `DUPLICATE`) passes the
EXPAND pass and `duplicate` unchanged. -/
theorem macro_pass_through_witness :
    replMacroFunction EXPAND_MACRO_NAME true (expand_repl_func nodeSetModel)
        (chars "x$FOO(a)$y") = .ok (chars "x$FOO(a)$y") ∧
    duplicate nodeSetModel [(chars "p", [chars "$FOO(a)$"])] =
      .ok [[(chars "p", [chars "$FOO(a)$"])]] := by
  constructor
  · exact macro_pass_through.1 EXPAND_MACRO_NAME true
      (expand_repl_func nodeSetModel) (chars "x$FOO(a)$y") (by decide)
  · exact macro_pass_through.2 nodeSetModel
      [(chars "p", [chars "$FOO(a)$"])] (by decide)

/-! ### Shape preservation by `duplicate` (claim C9) -/

theorem length_mapNth {α : Type} (l : List α) (j : Nat) (f : α → α) :
    (mapNth l j f).length = l.length := by
  unfold mapNth
  cases l.get? j <;> simp [List.length_set]

theorem shape_recMod (r : Record) (p : List Char) (i : Nat)
    (f : List Char → List Char) : shape (recMod r p i f) = shape r := by
  unfold shape recMod
  induction r with
  | nil => rfl
  | cons pr rest ih =>
    simp only [List.map_cons, List.cons.injEq]
    constructor
    · by_cases hp : pr.1 = p <;> simp [hp, length_mapNth]
    · exact ih

theorem mem_mapNth {α : Type} {l : List α} {j : Nat} {f : α → α} {x : α}
    (h : x ∈ mapNth l j f) : x ∈ l ∨ ∃ y ∈ l, x = f y := by
  unfold mapNth at h
  cases hg : l.get? j with
  | none => rw [hg] at h; exact Or.inl h
  | some y =>
    rw [hg] at h
    rcases List.mem_or_eq_of_mem_set h with hin | heq
    · exact Or.inl hin
    · exact Or.inr ⟨y, List.get?_mem hg, heq⟩

theorem dupAssign_shape {p : List Char} {i : Nat} {pfx : List Char}
    {S : List (List Char × Nat)} {tmpl : Record} (ht : shape tmpl = S) :
    ∀ (vs : List (List Char)) (j : Nat) (clones : List Record),
      (∀ c ∈ clones, shape c = S) →
      ∀ c ∈ dupAssign p i pfx tmpl j vs clones, shape c = S := by
  intro vs
  induction vs with
  | nil => intro j clones h c hc; exact h c hc
  | cons v vs ih =>
    intro j clones h c hc
    simp only [dupAssign] at hc
    refine ih (j + 1) _ ?_ c hc
    intro c2 hc2
    rcases mem_mapNth hc2 with hin | ⟨y, hy, heq⟩
    · by_cases hj : j = clones.length
      · rw [if_pos hj] at hin
        rcases List.mem_append.mp hin with h1 | h2
        · exact h c2 h1
        · simp only [List.mem_singleton] at h2
          rw [h2]
          exact ht
      · rw [if_neg hj] at hin
        exact h c2 hin
    · have hyS : shape y = S := by
        by_cases hj : j = clones.length
        · rw [if_pos hj] at hy
          rcases List.mem_append.mp hy with h1 | h2
          · exact h y h1
          · simp only [List.mem_singleton] at h2
            rw [h2]
            exact ht
        · rw [if_neg hj] at hy
          exact h y hy
      rw [heq, shape_recMod]
      exact hyS

theorem dupBroadcast_shape {p : List Char} {i nvals : Nat} {lastv : List Char}
    {S : List (List Char × Nat)} :
    ∀ (j : Nat) (clones : List Record), (∀ c ∈ clones, shape c = S) →
      ∀ c ∈ dupBroadcast p i nvals lastv j clones, shape c = S := by
  intro j clones
  induction clones generalizing j with
  | nil => intro _ c hc; cases hc
  | cons c0 cs ih =>
    intro h c hc
    simp only [dupBroadcast] at hc
    rcases List.mem_cons.mp hc with heq | hin
    · by_cases hn : nvals ≤ j
      · rw [heq, if_pos hn, shape_recMod]
        exact h c0 (by simp)
      · rw [heq, if_neg hn]
        exact h c0 (by simp)
    · exact ih (j + 1) (fun c2 hc2 => h c2 (by simp [hc2])) c hin

theorem appendAll_shape {p s : List Char} {i : Nat}
    {S : List (List Char × Nat)} {clones : List Record}
    (h : ∀ c ∈ clones, shape c = S) :
    ∀ c ∈ appendAll clones p i s, shape c = S := by
  intro c hc
  rcases List.mem_map.mp hc with ⟨y, hy, heq⟩
  rw [← heq, shape_recMod]
  exact h y hy

theorem reinitAll_shape {p : List Char} {i : Nat}
    {S : List (List Char × Nat)} {clones : List Record}
    (h : ∀ c ∈ clones, shape c = S) :
    ∀ c ∈ reinitAll clones p i, shape c = S := by
  intro c hc
  rcases List.mem_map.mp hc with ⟨y, hy, heq⟩
  rw [← heq, shape_recMod]
  exact h y hy

theorem dupMacroLoopF_shape {rexp : Rexp} {p : List Char} {i : Nat}
    {value : List Char} {S : List (List Char × Nat)} :
    ∀ (fuel start : Nat) (r : Bool) (st : DupSt),
      shape st.template = S → (∀ c ∈ st.clones, shape c = S) →
      ∀ st2 s2 r2,
        dupMacroLoopF rexp p i value fuel start r st = .ok (st2, s2, r2) →
        shape st2.template = S ∧ ∀ c ∈ st2.clones, shape c = S := by
  intro fuel
  induction fuel with
  | zero =>
    intro start r st ht hc st2 s2 r2 heq
    cases heq
    exact ⟨ht, hc⟩
  | succ fuel ih =>
    intro start r st ht hc st2 s2 r2 heq
    rw [show (fuel + 1) = fuel + 1 from rfl] at heq
    cases hfm : findMacro (value.drop start) with
    | error e =>
      simp only [dupMacroLoopF, hfm] at heq
      exact Except.noConfusion heq
    | ok op =>
      cases op with
      | none =>
        simp only [dupMacroLoopF, hfm] at heq
        cases heq
        exact ⟨ht, hc⟩
      | some m =>
        by_cases hdc : dupCond value = true
        · have hst1t : shape (if r = true then st else
              { clones := reinitAll st.clones p i,
                template := recMod st.template p i (fun _ => []) } : DupSt).template
              = S := by
            cases r <;> simp [shape_recMod, ht]
          have hst1c : ∀ c ∈ (if r = true then st else
              { clones := reinitAll st.clones p i,
                template := recMod st.template p i (fun _ => []) } : DupSt).clones,
              shape c = S := by
            cases r
            · simpa using reinitAll_shape hc
            · simpa using hc
          cases hargs : m.args with
          | none =>
            simp only [dupMacroLoopF, hfm, hdc, hargs, if_true] at heq
            refine ih (start + m.endMacro + 1) true _ ?_ ?_ st2 s2 r2 heq
            · exact hst1t
            · exact appendAll_shape hst1c
          | some argv =>
            by_cases hpref : DUPLICATE_MACRO_NAME.isPrefixOf m.name = true
            · cases hck : check_ends_with_dollar m with
              | error e =>
                simp only [dupMacroLoopF, hfm, hdc, hargs, hpref, hck, if_true] at heq
                exact Except.noConfusion heq
              | ok u =>
                cases hex : expand rexp argv with
                | error e =>
                  simp only [dupMacroLoopF, hfm, hdc, hargs, hpref, hck, hex,
                    if_true] at heq
                  exact Except.noConfusion heq
                | ok ex =>
                  simp only [dupMacroLoopF, hfm, hdc, hargs, hpref, hck, hex,
                    if_true] at heq
                  refine ih (start + m.endMacro + 1) true _ ?_ ?_ st2 s2 r2 heq
                  · simpa [shape_recMod] using hst1t
                  · exact dupBroadcast_shape 0 _
                      (dupAssign_shape hst1t _ 0 _ hst1c)
            · simp only [dupMacroLoopF, hfm, hdc, hargs, hpref, if_true,
                Bool.false_eq_true, if_false] at heq
              refine ih (start + m.endMacro + 1) true _ ?_ ?_ st2 s2 r2 heq
              · exact hst1t
              · exact appendAll_shape hst1c
        · simp only [dupMacroLoopF, hfm, hdc, Bool.false_eq_true, if_false] at heq
          cases heq
          exact ⟨ht, hc⟩

theorem dupValue_shape {rexp : Rexp} {p : List Char} {i : Nat}
    {v : List Char} {st st2 : DupSt} {S : List (List Char × Nat)}
    (ht : shape st.template = S) (hc : ∀ c ∈ st.clones, shape c = S)
    (heq : dupValue rexp p i v st = .ok st2) :
    shape st2.template = S ∧ ∀ c ∈ st2.clones, shape c = S := by
  unfold dupValue at heq
  cases hl : dupMacroLoopF rexp p i v (v.length + 1) 0 false st with
  | error e => rw [hl] at heq; cases heq
  | ok t =>
    obtain ⟨st1, s1, r1⟩ := t
    have hinv := dupMacroLoopF_shape (v.length + 1) 0 false st ht hc st1 s1 r1 hl
    rw [hl] at heq
    cases r1 with
    | false =>
      simp only [Bool.false_eq_true, if_false] at heq
      cases heq
      exact hinv
    | true =>
      simp only [if_true] at heq
      cases heq
      exact ⟨hinv.1, appendAll_shape hinv.2⟩

theorem dupVals_shape {rexp : Rexp} {p : List Char} {S : List (List Char × Nat)} :
    ∀ (i : Nat) (vs : List (List Char)) (st st2 : DupSt),
      shape st.template = S → (∀ c ∈ st.clones, shape c = S) →
      dupVals rexp p i vs st = .ok st2 →
      shape st2.template = S ∧ ∀ c ∈ st2.clones, shape c = S := by
  intro i vs
  induction vs generalizing i with
  | nil =>
    intro st st2 ht hc heq
    cases heq
    exact ⟨ht, hc⟩
  | cons v vs ih =>
    intro st st2 ht hc heq
    unfold dupVals at heq
    cases hv : dupValue rexp p i v st with
    | error e => rw [hv] at heq; cases heq
    | ok st1 =>
      rw [hv] at heq
      have h1 := dupValue_shape ht hc hv
      exact ih (i + 1) st1 st2 h1.1 h1.2 heq

theorem dupProps_shape {rexp : Rexp} {S : List (List Char × Nat)} :
    ∀ (entries : Record) (st st2 : DupSt),
      shape st.template = S → (∀ c ∈ st.clones, shape c = S) →
      dupProps rexp entries st = .ok st2 →
      shape st2.template = S ∧ ∀ c ∈ st2.clones, shape c = S := by
  intro entries
  induction entries with
  | nil =>
    intro st st2 ht hc heq
    cases heq
    exact ⟨ht, hc⟩
  | cons pr rest ih =>
    intro st st2 ht hc heq
    obtain ⟨p, vs⟩ := pr
    unfold dupProps at heq
    cases hv : dupVals rexp p 0 vs st with
    | error e => rw [hv] at heq; cases heq
    | ok st1 =>
      rw [hv] at heq
      have h1 := dupVals_shape 0 vs st st1 ht hc hv
      exact ih st1 st2 h1.1 h1.2 heq

/-- Claim C9: every record in a successful result of `duplicate` has
exactly the input record's property names in order, each with exactly
the input's number of values — duplication rewrites value strings but
never adds or removes properties or values. -/
theorem duplicate_shape (rexp : Rexp) (obj : Record) (lst : List Record)
    (h : duplicate rexp obj = .ok lst) : ∀ r ∈ lst, shape r = shape obj := by
  unfold duplicate at h
  cases hdp : dupProps rexp obj { clones := [], template := copy_obj obj } with
  | error e => rw [hdp] at h; cases h
  | ok st =>
    simp only [hdp] at h
    have hinv := dupProps_shape obj _ st rfl (by intro c hc; cases hc) hdp
    by_cases hcl : st.clones = []
    · simp only [hcl, if_true] at h
      cases h
      intro r hr
      simp only [List.mem_singleton] at hr
      rw [hr]
    · simp only [hcl, if_false] at h
      cases h
      exact hinv.2

/-- Witness for `duplicate_shape` at a concrete record: the first clone
of a 2-way duplication keeps the property names `p`, `q` with one value
each. -/
theorem duplicate_shape_witness :
    shape [(chars "p", [chars "a"]), (chars "q", [chars "c"])] =
      shape [(chars "p", [chars "$DUPLICATE(a,b)$"]), (chars "q", [chars "c"])] := by
  have h := duplicate_shape nodeSetModel
    [(chars "p", [chars "$DUPLICATE(a,b)$"]), (chars "q", [chars "c"])]
    [[(chars "p", [chars "a"]), (chars "q", [chars "c"])],
     [(chars "p", [chars "b"]), (chars "q", [chars "c"])]] (by decide)
  exact h _ (by decide)

/-! ### Order- and duplicate-preserving expansion (claim C8) -/

/-- Once the cursor has moved past the end of the value, the
substitution loop contributes nothing more. -/
theorem replLoopF_past (tn : List Char) (ewd : Bool)
    (rf : List Char → Except Err (List Char)) (value : List Char)
    (fuel start : Nat) (h : value.length ≤ start) :
    replLoopF tn ewd rf value fuel start = .ok [] := by
  cases fuel with
  | zero => rfl
  | succ fuel =>
    simp only [replLoopF, if_neg (by omega : ¬ start < value.length)]

/-- Evaluation of the substitution loop on a value that consists of
exactly one matching macro-function: the result is the replacement
function's output (or its failure). -/
theorem replLoopF_single_macro (tn : List Char) (ewd : Bool)
    (rf : List Char → Except Err (List Char)) (value argv : List Char)
    (m : MacroTok)
    (hfm : findMacro value = .ok (some m))
    (hargs : m.args = some argv)
    (hpref : tn.isPrefixOf m.name = true)
    (hed : m.endDollar = true)
    (hstart : m.startMacro = 0)
    (hlen : value.length = m.endMacro + 1) :
    replMacroFunction tn ewd rf value =
      match rf argv with
      | .error e => .error e
      | .ok rep => .ok rep := by
  have hpos : 0 < value.length := by omega
  unfold replMacroFunction
  simp only [replLoopF, if_pos hpos, List.drop_zero, hfm, hargs, hpref,
    Bool.true_eq_false, if_false, check_ends_with_dollar, hed, if_true, ite_self]
  rw [show (0 + m.endMacro + 1) = value.length from by omega]
  rw [replLoopF_past tn ewd rf value value.length value.length (Nat.le_refl _)]
  cases rf argv with
  | error e => rfl
  | ok rep => simp [pySlice, hstart]

/-- Claim C8: the EXPAND pass preserves declaration order and duplicate
values — for any external expander, `$EXPAND(b,a,a)$` expands to the
expander's sequences for `b`, `a`, `a` concatenated in declaration
order (keeping the repetition of `a`) and joined with commas, with no
deduplication and no reordering. -/
theorem expand_order_preserving (rexp : Rexp) (lb la : List (List Char))
    (hb : rexp (chars "b") = .ok lb) (ha : rexp (chars "a") = .ok la) :
    expand rexp (chars "$EXPAND(b,a,a)$") =
      .ok (List.intercalate [','] (lb ++ la ++ la)) := by
  have hgather : gatherChunks rexp (split_preserve_range (chars "b,a,a") ',') =
      .ok (lb ++ (la ++ (la ++ []))) := by
    rw [show split_preserve_range (chars "b,a,a") ',' =
        [chars "b", chars "a", chars "a"] from by decide]
    simp only [gatherChunks, hb, ha]
  have herf : expand_repl_func rexp (chars "b,a,a") =
      .ok (List.intercalate [','] (lb ++ la ++ la)) := by
    unfold expand_repl_func
    rw [hgather]
    simp [List.append_assoc]
  have h1 := replLoopF_single_macro EXPAND_MACRO_NAME true
    (expand_repl_func rexp) (chars "$EXPAND(b,a,a)$") (chars "b,a,a")
    ⟨0, 14, chars "EXPAND", some (chars "b,a,a"), chars "$EXPAND(b,a,a)$", true⟩
    (by decide) (by decide) (by decide) (by decide) (by decide) (by decide)
  unfold expand
  rw [h1, herf]

/-- Witness for `expand_order_preserving` with the modelled expander,
where each plain token expands to itself. -/
theorem expand_order_preserving_witness :
    expand nodeSetModel (chars "$EXPAND(b,a,a)$") = .ok (chars "b,a,a") := by
  rw [expand_order_preserving nodeSetModel [chars "b"] [chars "a"]
    (by decide) (by decide)]
  decide
